import Mathlib

/-!
Verification of the THALOS project-signature engine, dependency resolver and
content-addressed cache (`src/thalos_utils.py`, `src/thalos_core.py`).

The Python code is shallowly embedded: dicts become insertion-ordered
association lists, sets of strings become lists with membership, the recursive
DFS helpers become fuel-indexed functions returning `Option` (`none` marks fuel
exhaustion; adequacy of the chosen fuel is proved separately), and the cache's
file system becomes an explicit state record.
-/

namespace Thalos

/-- Nodes of the dependency graph are package names (Python strings). -/
abbrev Node := String

/-- `DependencyResolver.dependency_graph`: a Python dict mapping a package to
the list of packages it depends on, modelled as an insertion-ordered
association list (Python dict keys are unique and iterate in insertion
order). -/
abbrev Graph := List (Node × List Node)

/-- First-binding lookup in an association list with string keys: the
semantics of `d[k]` / `d.get(k)` / `k in d` on a Python dict. -/
def lookupA {α : Type} (k : String) : List (String × α) → Option α
  | [] => none
  | p :: rest => if p.1 = k then some p.2 else lookupA k rest

/-- `self.dependency_graph.get(node, [])` (thalos_utils.py line 130/159). -/
def gdeps (g : Graph) (n : Node) : List Node := (lookupA n g).getD []

/-- Iteration order of the dict keys (`for node in self.dependency_graph`). -/
def gnodes (g : Graph) : List Node := g.map Prod.fst

/-- Every node name occurring anywhere in the graph: keys plus all members of
dependency lists.  Any node the DFS can ever reach is in this list. -/
def allNodes (g : Graph) : List Node := gnodes g ++ g.foldr (fun p acc => p.2 ++ acc) []

/-- Fuel bound for the DFS helpers: one more than the number of distinct node
names in the graph.  Each nested recursive call marks a previously unvisited
node visited, so the recursion depth never exceeds this bound. -/
def fuelOf (g : Graph) : Nat := (allNodes g).toFinset.card + 1

/-- `visit` inside `DependencyResolver.get_build_order` (lines 125-133).
State is `(visited, result)`.  The Python recursion is modelled with fuel;
`none` means the fuel ran out before the call returned. -/
def visitB (g : Graph) : Nat → Node → List Node × List Node → Option (List Node × List Node)
  | 0, _, _ => none
  | fuel + 1, node, st =>
    if node ∈ st.1 then some st
    else do
      let st2 ← (gdeps g node).foldlM (fun s d => visitB g fuel d s) (node :: st.1, st.2)
      pure (st2.1, st2.2 ++ [node])

/-- The loop `for node in self.dependency_graph: visit(node)` (lines 135-136). -/
def goB (g : Graph) : List Node → List Node × List Node → Option (List Node × List Node)
  | [], st => some st
  | n :: ns, st =>
    match visitB g (fuelOf g) n st with
    | none => none
    | some st' => goB g ns st'

/-- `DependencyResolver.get_build_order` (lines 119-138). -/
def get_build_order (g : Graph) : List Node :=
  match goB g (gnodes g) ([], []) with
  | some st => st.2
  | none => []

/-- `path.index(node)`: index of the first occurrence of `node` in `path`. -/
def idxOf (a : Node) : List Node → Nat
  | [] => 0
  | b :: l => if b = a then 0 else idxOf a l + 1

/-- Mutable state of `DependencyResolver.detect_cycles` (lines 142-144):
the `cycles` accumulator, the `visited` set and the recursion stack. -/
structure CycSt where
  cycles : List (List Node)
  visited : List Node
  recStack : List Node
deriving DecidableEq, Repr

/-- `visit` inside `DependencyResolver.detect_cycles` (lines 146-163).  The
Python function also returns a `bool`, but every call site discards it, so the
embedding keeps only the state.  Fuel-indexed as for `visitB`. -/
def visitC (g : Graph) : Nat → Node → List Node → CycSt → Option CycSt
  | 0, _, _, _ => none
  | fuel + 1, node, path, st =>
    if node ∈ st.recStack then
      some { st with cycles := st.cycles ++ [path.drop (idxOf node path) ++ [node]] }
    else if node ∈ st.visited then
      some st
    else do
      let st2 ← (gdeps g node).foldlM (fun s d => visitC g fuel d (path ++ [node]) s)
        { st with visited := node :: st.visited, recStack := node :: st.recStack }
      pure { st2 with recStack := st2.recStack.erase node }

/-- The loop `for node in self.dependency_graph: visit(node, [])` (165-166). -/
def goC (g : Graph) : List Node → CycSt → Option CycSt
  | [], st => some st
  | n :: ns, st =>
    match visitC g (fuelOf g) n [] st with
    | none => none
    | some st' => goC g ns st'

/-- `DependencyResolver.detect_cycles` (lines 140-168). -/
def detect_cycles (g : Graph) : List (List Node) :=
  match goC g (gnodes g) ⟨[], [], []⟩ with
  | some st => st.cycles
  | none => []

/-- `a` reaches `b` through zero or more dependency edges of `g`. -/
inductive Reaches (g : Graph) : Node → Node → Prop
  | refl (a : Node) : Reaches g a a
  | step {a b c : Node} : b ∈ gdeps g a → Reaches g b c → Reaches g a c

/-- A graph is acyclic when no dependency edge closes a path back to its
source. -/
def Acyclic (g : Graph) : Prop := ∀ a b : Node, b ∈ gdeps g a → ¬ Reaches g b a

/-- A list of nodes is a path of the graph: each element has a dependency
edge to the next. -/
def isChain (g : Graph) : List Node → Bool
  | [] => true
  | [_] => true
  | a :: b :: rest => (decide (b ∈ gdeps g a)) && isChain g (b :: rest)

/-- A cyclic dependency path: at least one edge, consecutive elements joined
by dependency edges, and the last element equal to the first. -/
def isCyclePath (g : Graph) (p : List Node) : Bool :=
  match p with
  | [] => false
  | a :: rest => (!rest.isEmpty) && isChain g p && (p.getLast? == some a)

/-! ## SmartCache (thalos_utils.py lines 171-246)

The cache directory is modelled as an explicit state: the index file and one
payload file per path.  A file is `absent` (does not exist), `corrupt`
(exists, but `json.loads` raises) or `good v` (exists and parses to `v`).
`json.dumps` followed by `json.loads` is modelled as the identity on stored
values, so a payload value is kept as an opaque string. -/

/-- Contents of one on-disk file, as seen through `json.loads`. -/
inductive FileData (α : Type) where
  | absent : FileData α
  | corrupt : FileData α
  | good : α → FileData α
deriving DecidableEq, Repr

/-- One value of the index dict: `\x7b'timestamp': ..., 'dependencies': ...,
'file': ...\x7d` (lines 198-202). -/
structure IndexEntry where
  timestamp : Nat
  dependencies : List String
  file : String
deriving DecidableEq, Repr

/-- The parsed index file: a Python dict from cache key to metadata. -/
abbrev Index := List (String × IndexEntry)

/-- Stored payloads are opaque JSON-serialisable values. -/
abbrev Val := String

/-- The cache directory: the index file plus the payload files, keyed by
file name relative to the directory. -/
structure CacheFS where
  index : FileData Index
  payloads : List (String × FileData Val)
deriving DecidableEq, Repr

/-- `d[k] = v` on a Python dict: replace the binding in place if the key
exists, append it otherwise. -/
def updateA {α : Type} (k : String) (v : α) : List (String × α) → List (String × α)
  | [] => [(k, v)]
  | p :: rest => if p.1 = k then (k, v) :: rest else p :: updateA k v rest

/-- `del d[k]` on a Python dict: remove the (unique) binding of `k`. -/
def delA {α : Type} (k : String) : List (String × α) → List (String × α)
  | [] => []
  | p :: rest => if p.1 = k then rest else p :: delA k rest

/-- `f"\x7bkey\x7d.cache"`: the payload file name for a key (line 183/195). -/
def cachePath (key : String) : String := key ++ ".cache"

/-- `cache_file.exists()` for a path of the modelled directory. -/
def fileExists (payloads : List (String × FileData Val)) (p : String) : Bool :=
  match lookupA p payloads with
  | some FileData.absent => false
  | some _ => true
  | none => false

/-- `SmartCache._load_index` (lines 235-242): a missing or unparsable index
file yields the empty dict. -/
def load_index (fs : CacheFS) : Index :=
  match fs.index with
  | FileData.good m => m
  | _ => []

/-- `SmartCache.get` (lines 179-189): look the key up in the index, then read
the payload file `key + ".cache"`; a missing or unparsable payload falls
through to `return None`. -/
def cacheGet (fs : CacheFS) (key : String) : Option Val :=
  match lookupA key (load_index fs) with
  | some _ =>
    if fileExists fs.payloads (cachePath key) then
      match lookupA (cachePath key) fs.payloads with
      | some (FileData.good v) => some v
      | _ => none
    else none
  | none => none

/-- `SmartCache.set` (lines 191-204): write the payload file, record the
index entry (`dependencies or []` is the caller-supplied list) and save the
index.  `now` models `time.time()`. -/
def cacheSet (fs : CacheFS) (key : String) (value : Val) (dependencies : List String)
    (now : Nat) : CacheFS :=
  let index := load_index fs
  let payloads := updateA (cachePath key) (FileData.good value) fs.payloads
  let index := updateA key ⟨now, dependencies, cachePath key⟩ index
  ⟨FileData.good index, payloads⟩

/-- `SmartCache.invalidate` (lines 206-214): if the key is indexed, unlink
the file named by the index entry (if it exists), delete the index binding
and save the index; otherwise do nothing. -/
def cacheInvalidate (fs : CacheFS) (key : String) : CacheFS :=
  let index := load_index fs
  match lookupA key index with
  | some entry =>
    let payloads :=
      if fileExists fs.payloads entry.file then delA entry.file fs.payloads
      else fs.payloads
    ⟨FileData.good (delA key index), payloads⟩
  | none => fs

/-- `SmartCache.invalidate_dependent` (lines 216-226): collect every indexed
key whose recorded dependency list contains `dependency`, then invalidate
each in turn. -/
def cacheInvalidateDependent (fs : CacheFS) (dependency : String) : CacheFS :=
  let index := load_index fs
  let toInvalidate := (index.filter (fun p => dependency ∈ p.2.dependencies)).map Prod.fst
  toInvalidate.foldl cacheInvalidate fs

/-- Well-formedness of the on-disk index: keys are unique (a parsed JSON
dict) and every entry's recorded payload path is the canonical one written by
`set`.  Every state produced by the cache's own operations satisfies this. -/
def wfFS (fs : CacheFS) : Bool :=
  decide ((load_index fs).map Prod.fst).Nodup &&
    (load_index fs).all (fun p => p.2.file == cachePath p.1)

/-! ## File signatures (thalos_core.py lines 300-319)

`IntelligentAnalyzer._compute_file_signatures` walks the tree and maps each
relative path to `hashlib.sha256(content).hexdigest()[:16]`.  The walk is
modelled as a list of file entries in enumeration order; `sha256(...).
hexdigest()` is an external library call, modelled as an uninterpreted
function from the file's bytes to its full hex digest. -/

/-- One file met by the `os.walk` loop: its path relative to the root, its
bytes, and whether `stat`/`read_bytes` succeed (an exception skips the
file). -/
structure FileEntry where
  path : String
  content : List Nat
  readable : Bool
deriving DecidableEq, Repr

/-- The guard of lines 309-311: the file is readable and
`stat().st_size < 10_000_000`. -/
def includedFile (e : FileEntry) : Bool :=
  e.readable && decide (e.content.length < 10000000)

/-- `_compute_file_signatures` (lines 300-319): fold over the enumerated
files, storing `hexdigest[:16]` under the relative path for each included
file and skipping the rest. -/
def computeFileSignatures (hash : List Nat → String) (tree : List FileEntry) :
    List (String × String) :=
  tree.foldl
    (fun sigs e =>
      if includedFile e then updateA e.path ((hash e.content).take 16) sigs
      else sigs)
    []

/-! ## Concrete graphs used by the claims -/

/-- The three-cycle `\x7bA: [B], B: [C], C: [A]\x7d` of the spec's cycle-reporting
property. -/
def gC5 : Graph := [("A", ["B"]), ("B", ["C"]), ("C", ["A"])]

/-- A graph with two distinct cycles, `A -> B1 -> C -> A` and
`A -> B2 -> C -> A`, of which the DFS reports only the first: when the walk
reaches `C` through `B2`, `C` is already fully visited and the traversal
stops there. -/
def gC6 : Graph := [("A", ["B1", "B2"]), ("B1", ["C"]), ("B2", ["C"]), ("C", ["A"])]

/-- A graph on which the DFS does report two cycles, `A -> B -> A` and
`A -> C -> A`. -/
def gM : Graph := [("A", ["B", "C"]), ("B", ["A"]), ("C", ["A"])]

/-- **C5.** On `\x7bA: [B], B: [C], C: [A]\x7d`, `detect_cycles` returns a
non-empty list containing a cycle that covers `A`, `B` and `C`, and
`get_build_order` still completes and returns a permutation of
`\x7bA, B, C\x7d`. -/
theorem cycle_reporting_c5 :
    detect_cycles gC5 ≠ [] ∧
    (∃ c ∈ detect_cycles gC5, "A" ∈ c ∧ "B" ∈ c ∧ "C" ∈ c) ∧
    (get_build_order gC5).Perm ["A", "B", "C"] ∧
    (∃ st, goC gC5 (gnodes gC5) ⟨[], [], []⟩ = some st) ∧
    (∃ st, goB gC5 (gnodes gC5) ([], []) = some st) := by
  refine ⟨by decide, ⟨["A", "B", "C", "A"], by decide, by decide, by decide, by decide⟩,
    by decide, ⟨_, rfl⟩, ⟨_, rfl⟩⟩

/-- **C6, counterexample.** The claim says `detect_cycles` returns every
distinct cycle of the graph.  On `gC6` the path `A -> B2 -> C -> A` is a
genuine cycle, yet the returned list is exactly `[[A, B1, C, A]]` and does
not contain it (nor any cycle through `B2`). -/
theorem detect_cycles_not_all_cycles :
    isCyclePath gC6 ["A", "B2", "C", "A"] = true ∧
    detect_cycles gC6 = [["A", "B1", "C", "A"]] ∧
    ["A", "B2", "C", "A"] ∉ detect_cycles gC6 ∧
    (∀ c ∈ detect_cycles gC6, "B2" ∉ c) := by
  refine ⟨by decide, by decide, by decide, by decide⟩

/-- **C6, amended.** Traversal does continue after recording a cycle — on
`gM` it records two, each written as the path from the repeated node's first
occurrence back to itself — but it only discovers cycles reached through
not-yet-visited nodes, so the returned list need not contain every distinct
cycle of the graph. -/
theorem detect_cycles_continues_after_cycle :
    detect_cycles gM = [["A", "B", "A"], ["A", "C", "A"]] ∧
    (detect_cycles gM).length = 2 ∧
    (∀ c ∈ detect_cycles gM, isCyclePath gM c = true) := by
  refine ⟨by decide, by decide, by decide⟩

/-! ## Association-list lemmas -/

theorem lookupA_updateA_self {α : Type} (k : String) (v : α) (l : List (String × α)) :
    lookupA k (updateA k v l) = some v := by
  induction l with
  | nil => simp [updateA, lookupA]
  | cons p rest ih =>
    by_cases h : p.1 = k
    · simp [updateA, h, lookupA]
    · simp [updateA, h, lookupA, ih]

theorem lookupA_updateA_ne {α : Type} {k k' : String} (h : k' ≠ k) (v : α)
    (l : List (String × α)) : lookupA k (updateA k' v l) = lookupA k l := by
  induction l with
  | nil => simp [updateA, lookupA, h]
  | cons p rest ih =>
    by_cases hp : p.1 = k'
    · simp [updateA, hp, lookupA, h, ih]
    · simp [updateA, hp, lookupA, ih]

theorem lookupA_delA_ne {α : Type} {k k' : String} (h : k' ≠ k)
    (l : List (String × α)) : lookupA k (delA k' l) = lookupA k l := by
  induction l with
  | nil => simp [delA]
  | cons p rest ih =>
    by_cases hp : p.1 = k'
    · subst hp
      simp [delA, lookupA, h, ih]
    · simp [delA, hp, lookupA, ih]

theorem lookupA_eq_none_of_not_mem {α : Type} {k : String} {l : List (String × α)}
    (h : k ∉ l.map Prod.fst) : lookupA k l = none := by
  induction l with
  | nil => simp [lookupA]
  | cons p rest ih =>
    simp only [List.map_cons, List.mem_cons, not_or] at h
    have hp : p.1 ≠ k := fun he => h.1 he.symm
    simp [lookupA, hp, ih h.2]

theorem lookupA_delA_self {α : Type} (k : String) (l : List (String × α))
    (hnd : (l.map Prod.fst).Nodup) : lookupA k (delA k l) = none := by
  induction l with
  | nil => simp [delA, lookupA]
  | cons p rest ih =>
    simp only [List.map_cons, List.nodup_cons] at hnd
    by_cases hp : p.1 = k
    · subst hp
      simp only [delA, if_pos rfl]
      exact lookupA_eq_none_of_not_mem hnd.1
    · simp [delA, hp, lookupA, ih hnd.2]

/-! ## C2: cache round-trip -/

/-- **C2.** `set(k, v, deps)` immediately followed by `get(k)` returns `v`,
for every prior cache state, key, value, dependency list and timestamp. -/
theorem cache_set_get_roundtrip (fs : CacheFS) (k : String) (v : Val)
    (deps : List String) (now : Nat) :
    cacheGet (cacheSet fs k v deps now) k = some v := by
  simp [cacheSet, cacheGet, load_index, fileExists, lookupA_updateA_self]

/-! ## C8: corruption handled as a miss -/

/-- **C8.** A missing or unparsable index file makes `get` return `None` for
every key; and when an index entry exists for a key but the key's payload
file is missing or unparsable, `get` for that key returns `None` instead of
raising. -/
theorem cache_corruption_is_miss (fs : CacheFS) (k : String) :
    ((fs.index = FileData.absent ∨ fs.index = FileData.corrupt) → cacheGet fs k = none) ∧
    (∀ e, lookupA k (load_index fs) = some e →
      (fileExists fs.payloads (cachePath k) = false ∨
        lookupA (cachePath k) fs.payloads = some FileData.corrupt) →
      cacheGet fs k = none) := by
  constructor
  · intro h
    rcases h with h | h <;> simp [cacheGet, load_index, h, lookupA]
  · intro e he hbad
    simp only [cacheGet, he]
    rcases hbad with h | h
    · simp [h]
    · simp [fileExists, h]

/-- A cache directory whose index file exists but does not parse. -/
def fsCorruptIdx : CacheFS := ⟨FileData.corrupt, [("k.cache", FileData.good "v")]⟩

/-- A cache directory with a well-formed index entry for `"k"` whose payload
file exists but does not parse. -/
def fsBadPayload : CacheFS :=
  ⟨FileData.good [("k", ⟨0, [], "k.cache"⟩)], [("k.cache", FileData.corrupt)]⟩

/-- Witness for C8: both corruption shapes answer `None` on a concrete
state. -/
theorem cache_corruption_is_miss_witness :
    cacheGet fsCorruptIdx "k" = none ∧ cacheGet fsBadPayload "k" = none :=
  ⟨(cache_corruption_is_miss fsCorruptIdx "k").1 (Or.inr rfl),
   (cache_corruption_is_miss fsBadPayload "k").2 ⟨0, [], "k.cache"⟩ (by decide)
     (Or.inr (by decide))⟩

/-! ## File-signature lemmas (C3, C9) -/

theorem updateA_of_not_mem {α : Type} {k : String} {l : List (String × α)}
    (h : k ∉ l.map Prod.fst) (v : α) : updateA k v l = l ++ [(k, v)] := by
  induction l with
  | nil => simp [updateA]
  | cons p rest ih =>
    simp only [List.map_cons, List.mem_cons, not_or] at h
    have hp : p.1 ≠ k := fun he => h.1 he.symm
    simp [updateA, hp, ih h.2]

theorem computeFS_gen (hash : List Nat → String) :
    ∀ (t : List FileEntry) (acc : List (String × String)),
      (∀ e ∈ t, e.path ∉ acc.map Prod.fst) →
      (t.map FileEntry.path).Nodup →
      t.foldl
          (fun sigs e =>
            if includedFile e then updateA e.path ((hash e.content).take 16) sigs else sigs)
          acc
        = acc ++ (t.filter includedFile).map (fun e => (e.path, (hash e.content).take 16)) := by
  intro t
  induction t with
  | nil => intro acc _ _; simp
  | cons e rest ih =>
    intro acc hfresh hnd
    simp only [List.map_cons, List.nodup_cons] at hnd
    by_cases hinc : includedFile e = true
    · simp only [List.foldl_cons, hinc, if_true]
      rw [updateA_of_not_mem (hfresh e (by simp)) _,
        ih (acc ++ [(e.path, (hash e.content).take 16)]) ?fresh hnd.2]
      · simp [List.filter_cons, hinc, List.append_assoc]
      case fresh =>
        intro e' he'
        simp only [List.map_append, List.mem_append, List.map_cons, List.map_nil,
          List.mem_singleton, not_or]
        refine ⟨hfresh e' (by simp [he']), fun hpe => ?_⟩
        exact hnd.1 (hpe ▸ List.mem_map_of_mem FileEntry.path he')
    · have hinc' : includedFile e = false := by
        cases h : includedFile e
        · rfl
        · exact absurd h hinc
      simp only [List.foldl_cons, hinc', if_false, Bool.false_eq_true]
      rw [ih acc (fun e' he' => hfresh e' (by simp [he'])) hnd.2]
      simp [List.filter_cons, hinc']

theorem computeFS_eq (hash : List Nat → String) (t : List FileEntry)
    (hnd : (t.map FileEntry.path).Nodup) :
    computeFileSignatures hash t
      = (t.filter includedFile).map (fun e => (e.path, (hash e.content).take 16)) := by
  have h := computeFS_gen hash t [] (by simp) hnd
  simpa [computeFileSignatures] using h

theorem lookupA_map_sig (hash : List Nat → String) (p : String) :
    ∀ l : List FileEntry,
      lookupA p (l.map (fun e => (e.path, (hash e.content).take 16)))
        = (l.find? (fun e => e.path == p)).map (fun e => (hash e.content).take 16) := by
  intro l
  induction l with
  | nil => simp [lookupA]
  | cons e rest ih =>
    by_cases hp : e.path = p
    · simp [lookupA, hp, List.find?_cons]
    · simp [lookupA, hp, List.find?_cons, ih]

theorem path_unique {t : List FileEntry} (hnd : (t.map FileEntry.path).Nodup)
    {e e' : FileEntry} (he : e ∈ t) (he' : e' ∈ t) (hp : e.path = e'.path) : e = e' :=
  List.inj_on_of_nodup_map hnd he he' hp

/-- **C9.** The signature computation never fails as a whole: it is exactly
the map sending each included file (readable, smaller than 10 MB) to the
first 16 characters of the hex digest of its raw bytes, with every
unreadable or oversized file silently dropped; included files keep their
digest in the resulting mapping. -/
theorem file_signatures_partial (hash : List Nat → String) (t : List FileEntry)
    (hnd : (t.map FileEntry.path).Nodup) :
    computeFileSignatures hash t
        = (t.filter includedFile).map (fun e => (e.path, (hash e.content).take 16)) ∧
      ∀ e ∈ t, includedFile e = true →
        lookupA e.path (computeFileSignatures hash t) = some ((hash e.content).take 16) := by
  refine ⟨computeFS_eq hash t hnd, fun e he hinc => ?_⟩
  rw [computeFS_eq hash t hnd, lookupA_map_sig]
  have hef : e ∈ t.filter includedFile := List.mem_filter.2 ⟨he, hinc⟩
  rcases hf : (t.filter includedFile).find? (fun x => x.path == e.path) with _ | e'
  · rw [List.find?_eq_none] at hf
    exact absurd (by simp) (hf e hef)
  · have hpe : e'.path = e.path := by simpa using List.find?_some hf
    have he2 : e' ∈ t := List.mem_of_mem_filter (List.mem_of_find?_eq_some hf)
    rw [hf, path_unique hnd he2 he hpe]
    rfl

/-- A concrete hex-digest stand-in for `hashlib.sha256(...).hexdigest()`. -/
def hashW : List Nat → String := fun c => toString (c.foldl (fun a b => a + b) 0)

/-- A tree with one included and one unreadable file. -/
def treeW3 : List FileEntry := [⟨"a.txt", [1, 2], true⟩, ⟨"bad.bin", [9], false⟩]

/-- Witness for C9 on a concrete tree containing an unreadable file. -/
theorem file_signatures_partial_witness :
    computeFileSignatures hashW treeW3
        = (treeW3.filter includedFile).map (fun e => (e.path, (hashW e.content).take 16)) ∧
      ∀ e ∈ treeW3, includedFile e = true →
        lookupA e.path (computeFileSignatures hashW treeW3)
          = some ((hashW e.content).take 16) :=
  file_signatures_partial hashW treeW3 (by decide)

/-- **C3.** Two runs of the signature computation over byte-identical trees
(the same files, possibly enumerated in a different order) produce the same
path-to-digest mapping. -/
theorem signature_order_independent (hash : List Nat → String) (t1 t2 : List FileEntry)
    (hperm : t1.Perm t2) (hnd : (t1.map FileEntry.path).Nodup) (p : String) :
    lookupA p (computeFileSignatures hash t1) = lookupA p (computeFileSignatures hash t2) := by
  have hnd2 : (t2.map FileEntry.path).Nodup := (hperm.map FileEntry.path).nodup_iff.1 hnd
  rw [computeFS_eq hash t1 hnd, computeFS_eq hash t2 hnd2, lookupA_map_sig, lookupA_map_sig]
  have hpf : (t1.filter includedFile).Perm (t2.filter includedFile) := hperm.filter _
  rcases hf : (t1.filter includedFile).find? (fun e => e.path == p) with _ | e
  · rw [hf]
    rw [List.find?_eq_none] at hf
    rw [List.find?_eq_none.2 fun x hx => hf x (hpf.mem_iff.2 hx)]
  · have hpe : e.path = p := by simpa using List.find?_some hf
    have hme : e ∈ t2.filter includedFile := hpf.mem_iff.1 (List.mem_of_find?_eq_some hf)
    rcases hf2 : (t2.filter includedFile).find? (fun e => e.path == p) with _ | e'
    · rw [List.find?_eq_none] at hf2
      exact absurd (by simp [hpe]) (hf2 e hme)
    · have hpe' : e'.path = p := by simpa using List.find?_some hf2
      have hme' : e' ∈ t2 := List.mem_of_mem_filter (List.mem_of_find?_eq_some hf2)
      rw [hf, hf2, path_unique hnd2 (List.mem_of_mem_filter hme) hme' (hpe.trans hpe'.symm)]

/-- A concrete tree and a reordering of it, for the C3 witness. -/
def treeW1 : List FileEntry :=
  [⟨"a.txt", [1, 2], true⟩, ⟨"b.txt", [3], true⟩, ⟨"big", [], false⟩]

/-- `treeW1` enumerated in a different order. -/
def treeW2 : List FileEntry :=
  [⟨"big", [], false⟩, ⟨"b.txt", [3], true⟩, ⟨"a.txt", [1, 2], true⟩]

/-- Witness for C3 on a concrete pair of reordered trees. -/
theorem signature_order_independent_witness :
    lookupA "a.txt" (computeFileSignatures hashW treeW1)
      = lookupA "a.txt" (computeFileSignatures hashW treeW2) :=
  signature_order_independent hashW treeW1 treeW2 (by decide) (by decide) "a.txt"

/-! ## C4: dependency-triggered invalidation -/

theorem cachePath_inj {k k' : String} (h : cachePath k = cachePath k') : k = k' := by
  have hd := congrArg String.data h
  simp only [cachePath, String.data_append] at hd
  exact String.ext (List.append_cancel_right hd)

theorem lookupA_mem {α : Type} {k : String} {v : α} :
    ∀ {l : List (String × α)}, lookupA k l = some v → ∃ p ∈ l, p.1 = k ∧ p.2 = v := by
  intro l
  induction l with
  | nil => intro h; simp [lookupA] at h
  | cons p rest ih =>
    intro h
    by_cases hp : p.1 = k
    · simp only [lookupA, if_pos hp, Option.some.injEq] at h
      exact ⟨p, by simp, hp, h⟩
    · simp only [lookupA, if_neg hp] at h
      rcases ih h with ⟨q, hq, hq1, hq2⟩
      exact ⟨q, by simp [hq], hq1, hq2⟩

theorem lookupA_of_mem_nodup {α : Type} {p : String × α} :
    ∀ {l : List (String × α)}, (l.map Prod.fst).Nodup → p ∈ l → lookupA p.1 l = some p.2 := by
  intro l
  induction l with
  | nil => intro _ h; simp at h
  | cons q rest ih =>
    intro hnd hp
    simp only [List.map_cons, List.nodup_cons] at hnd
    rcases List.mem_cons.1 hp with h | h
    · subst h; simp [lookupA]
    · have hq : q.1 ≠ p.1 := by
        intro he
        exact hnd.1 (he ▸ List.mem_map_of_mem Prod.fst h)
      simp [lookupA, hq, ih hnd.2 h]

theorem wf_nodup {fs : CacheFS} (h : wfFS fs = true) :
    ((load_index fs).map Prod.fst).Nodup := by
  simp only [wfFS, Bool.and_eq_true, decide_eq_true_eq] at h
  exact h.1

theorem wf_file {fs : CacheFS} (h : wfFS fs = true) :
    ∀ p ∈ load_index fs, p.2.file = cachePath p.1 := by
  simp only [wfFS, Bool.and_eq_true, decide_eq_true_eq, List.all_eq_true, beq_iff_eq] at h
  exact h.2

theorem mem_delA_subset {α : Type} {k : String} {p : String × α} :
    ∀ {l : List (String × α)}, p ∈ delA k l → p ∈ l := by
  intro l
  induction l with
  | nil => intro h; simp [delA] at h
  | cons q rest ih =>
    intro h
    by_cases hq : q.1 = k
    · simp only [delA, if_pos hq] at h
      exact List.mem_cons_of_mem q h
    · simp only [delA, if_neg hq, List.mem_cons] at h
      rcases h with h | h
      · exact h ▸ List.mem_cons_self q rest
      · exact List.mem_cons_of_mem q (ih h)

theorem delA_keys_sublist {α : Type} (k : String) :
    ∀ l : List (String × α), List.Sublist ((delA k l).map Prod.fst) (l.map Prod.fst) := by
  intro l
  induction l with
  | nil => simp [delA]
  | cons q rest ih =>
    by_cases hq : q.1 = k
    · simp only [delA, if_pos hq, List.map_cons]
      exact List.sublist_cons_self q.1 (rest.map Prod.fst)
    · simp only [delA, if_neg hq, List.map_cons]
      exact ih.cons₂ q.1

theorem load_index_good (m : Index) (pl : List (String × FileData Val)) :
    load_index ⟨FileData.good m, pl⟩ = m := rfl

theorem cacheInvalidate_none {fs : CacheFS} {k : String}
    (h : lookupA k (load_index fs) = none) : cacheInvalidate fs k = fs := by
  simp [cacheInvalidate, h]

theorem cacheInvalidate_some {fs : CacheFS} {k : String} {entry : IndexEntry}
    (h : lookupA k (load_index fs) = some entry) :
    cacheInvalidate fs k =
      ⟨FileData.good (delA k (load_index fs)),
        if fileExists fs.payloads entry.file then delA entry.file fs.payloads
        else fs.payloads⟩ := by
  simp [cacheInvalidate, h]

/-- `invalidate` preserves well-formedness of the cache directory. -/
theorem wf_invalidate {fs : CacheFS} (hwf : wfFS fs = true) (k : String) :
    wfFS (cacheInvalidate fs k) = true := by
  rcases hl : lookupA k (load_index fs) with _ | entry
  · rw [cacheInvalidate_none hl]
    exact hwf
  · rw [cacheInvalidate_some hl]
    have hnd := wf_nodup hwf
    have hfl := wf_file hwf
    simp only [wfFS, load_index_good, Bool.and_eq_true, decide_eq_true_eq,
      List.all_eq_true, beq_iff_eq]
    exact ⟨hnd.sublist (delA_keys_sublist k _),
      fun p hp => hfl p (mem_delA_subset hp)⟩

/-- Invalidating one key leaves `get` on any other key unchanged, for
well-formed states. -/
theorem get_invalidate_ne {fs : CacheFS} (hwf : wfFS fs = true) {k k' : String}
    (hne : k' ≠ k) : cacheGet (cacheInvalidate fs k') k = cacheGet fs k := by
  rcases hl : lookupA k' (load_index fs) with _ | entry
  · rw [cacheInvalidate_none hl]
  · rcases lookupA_mem hl with ⟨p, hp, hp1, hp2⟩
    have hfile : entry.file = cachePath k' := hp2 ▸ hp1 ▸ wf_file hwf p hp
    have hpath : cachePath k' ≠ cachePath k := fun he => hne (cachePath_inj he)
    rw [cacheInvalidate_some hl]
    simp only [cacheGet, load_index_good]
    rw [lookupA_delA_ne hne]
    rcases h2 : lookupA k (load_index fs) with _ | e
    · rfl
    · by_cases hex : fileExists fs.payloads entry.file = true
      · rw [hfile] at hex
        simp only [hfile, hex, if_true]
        have hlp : lookupA (cachePath k) (delA (cachePath k') fs.payloads)
            = lookupA (cachePath k) fs.payloads := lookupA_delA_ne hpath fs.payloads
        simp only [fileExists, hlp]
      · have hex' : fileExists fs.payloads entry.file = false :=
          Bool.not_eq_true _ ▸ eq_false_of_ne_true hex
        simp only [hex', Bool.false_eq_true, if_false]

/-- After `invalidate(k)`, `get(k)` answers `None`, for well-formed states. -/
theorem get_invalidate_self {fs : CacheFS} (hwf : wfFS fs = true) (k : String) :
    cacheGet (cacheInvalidate fs k) k = none := by
  rcases hl : lookupA k (load_index fs) with _ | entry
  · rw [cacheInvalidate_none hl]
    simp [cacheGet, hl]
  · rw [cacheInvalidate_some hl]
    simp only [cacheGet, load_index_good]
    rw [lookupA_delA_self k _ (wf_nodup hwf)]

/-- Folding `invalidate` over a key list preserves well-formedness. -/
theorem wf_fold_invalidate {fs : CacheFS} (hwf : wfFS fs = true) :
    ∀ ks : List String, wfFS (ks.foldl cacheInvalidate fs) = true := by
  intro ks
  induction ks generalizing fs with
  | nil => exact hwf
  | cons k rest ih => exact ih (wf_invalidate hwf k)

/-- Folding `invalidate` over keys other than `k` leaves `get(k)` unchanged. -/
theorem get_fold_invalidate_not_mem {k : String} :
    ∀ (ks : List String) (fs : CacheFS), wfFS fs = true → k ∉ ks →
      cacheGet (ks.foldl cacheInvalidate fs) k = cacheGet fs k := by
  intro ks
  induction ks with
  | nil => intro fs _ _; rfl
  | cons k' rest ih =>
    intro fs hwf hk
    simp only [List.mem_cons, not_or] at hk
    rw [List.foldl_cons, ih (cacheInvalidate fs k') (wf_invalidate hwf k') hk.2,
      get_invalidate_ne hwf (fun he => hk.1 he.symm)]

/-- Folding `invalidate` over a duplicate-free key list containing `k` makes
`get(k)` answer `None`. -/
theorem get_fold_invalidate_mem {k : String} {ks : List String} (hmem : k ∈ ks)
    (hnd : ks.Nodup) {fs : CacheFS} (hwf : wfFS fs = true) :
    cacheGet (ks.foldl cacheInvalidate fs) k = none := by
  rcases List.append_of_mem hmem with ⟨pre, post, rfl⟩
  have hpost : k ∉ post := by
    have h2 := hnd.of_append_right
    simp only [List.nodup_cons] at h2
    exact h2.1
  rw [List.foldl_append, List.foldl_cons]
  have hwfp : wfFS (pre.foldl cacheInvalidate fs) = true := wf_fold_invalidate hwf pre
  rw [get_fold_invalidate_not_mem post _ (wf_invalidate hwfp k) hpost,
    get_invalidate_self hwfp k]

/-- Keys selected for invalidation: membership characterisation. -/
theorem mem_toInvalidate {idx : Index} {d k : String}
    (hnd : (idx.map Prod.fst).Nodup) :
    k ∈ (idx.filter (fun p => d ∈ p.2.dependencies)).map Prod.fst ↔
      ∃ e, lookupA k idx = some e ∧ d ∈ e.dependencies := by
  constructor
  · intro h
    rcases List.mem_map.1 h with ⟨p, hp, hp1⟩
    have hpmem := List.mem_of_mem_filter hp
    have hpd : d ∈ p.2.dependencies := by
      have := List.of_mem_filter hp
      simpa using this
    exact ⟨p.2, hp1 ▸ lookupA_of_mem_nodup hnd hpmem, hpd⟩
  · rintro ⟨e, he, hd⟩
    rcases lookupA_mem he with ⟨p, hp, hp1, hp2⟩
    refine List.mem_map.2 ⟨p, List.mem_filter.2 ⟨hp, by simpa [hp2]⟩, hp1⟩

/-- **C4.** After `invalidate_dependent(d)` on a well-formed cache state,
`get(k)` answers `None` for every key whose recorded dependency list
contains `d`, and answers exactly as before for every key whose recorded
dependency list does not contain `d` (in particular the removal is
single-level: an entry depending on a removed key, but not on `d` itself,
is untouched). -/
theorem cache_invalidate_dependent_spec (fs : CacheFS) (d : String)
    (hwf : wfFS fs = true) :
    (∀ k e, lookupA k (load_index fs) = some e → d ∈ e.dependencies →
      cacheGet (cacheInvalidateDependent fs d) k = none) ∧
    (∀ k, (∀ e, lookupA k (load_index fs) = some e → d ∉ e.dependencies) →
      cacheGet (cacheInvalidateDependent fs d) k = cacheGet fs k) := by
  have hnd := wf_nodup hwf
  have hndInv : (((load_index fs).filter
      (fun p => d ∈ p.2.dependencies)).map Prod.fst).Nodup :=
    hnd.sublist ((List.filter_sublist _).map Prod.fst)
  constructor
  · intro k e he hd
    unfold cacheInvalidateDependent
    exact get_fold_invalidate_mem
      ((mem_toInvalidate hnd).2 ⟨e, he, hd⟩) hndInv hwf
  · intro k hk
    unfold cacheInvalidateDependent
    refine get_fold_invalidate_not_mem _ fs hwf (fun hmem => ?_)
    rcases (mem_toInvalidate hnd).1 hmem with ⟨e, he, hd⟩
    exact hk e he hd

/-- A well-formed concrete cache state with one entry depending on `"d"` and
one entry not depending on it. -/
def fsW : CacheFS :=
  ⟨FileData.good
      [("k1", ⟨0, ["d"], "k1.cache"⟩), ("k2", ⟨0, ["x"], "k2.cache"⟩)],
    [("k1.cache", FileData.good "v1"), ("k2.cache", FileData.good "v2")]⟩

/-- Witness for C4: on `fsW`, invalidating dependents of `"d"` removes `k1`
and leaves `k2` readable. -/
theorem cache_invalidate_dependent_spec_witness :
    cacheGet (cacheInvalidateDependent fsW "d") "k1" = none ∧
    cacheGet (cacheInvalidateDependent fsW "d") "k2" = cacheGet fsW "k2" :=
  ⟨(cache_invalidate_dependent_spec fsW "d" (by decide)).1 "k1" ⟨0, ["d"], "k1.cache"⟩
      (by decide) (by decide),
   (cache_invalidate_dependent_spec fsW "d" (by decide)).2 "k2"
      (fun e he => by
        have hv : lookupA "k2" (load_index fsW)
            = some (⟨0, ["x"], "k2.cache"⟩ : IndexEntry) := by decide
        rw [hv] at he
        injection he with he2
        subst he2
        decide)⟩

/-! ## Graph-traversal lemmas -/

theorem idxOf_lt_length {a : Node} : ∀ {l : List Node}, a ∈ l → idxOf a l < l.length := by
  intro l
  induction l with
  | nil => intro h; simp at h
  | cons b rest ih =>
    intro h
    by_cases hb : b = a
    · simp [idxOf, hb]
    · rcases List.mem_cons.1 h with h1 | h1
      · exact absurd h1.symm hb
      · simpa [idxOf, hb] using ih h1

theorem idxOf_append_left {a : Node} : ∀ {l₁ : List Node} (l₂ : List Node), a ∈ l₁ →
    idxOf a (l₁ ++ l₂) = idxOf a l₁ := by
  intro l₁
  induction l₁ with
  | nil => intro l₂ h; simp at h
  | cons b rest ih =>
    intro l₂ h
    by_cases hb : b = a
    · simp [idxOf, hb]
    · rcases List.mem_cons.1 h with h1 | h1
      · exact absurd h1.symm hb
      · simp [idxOf, hb, ih l₂ h1]

theorem idxOf_append_not_mem {a : Node} : ∀ {l₁ : List Node} (l₂ : List Node), a ∉ l₁ →
    idxOf a (l₁ ++ l₂) = l₁.length + idxOf a l₂ := by
  intro l₁
  induction l₁ with
  | nil => intro l₂ _; simp [idxOf]
  | cons b rest ih =>
    intro l₂ h
    simp only [List.mem_cons, not_or] at h
    have hb : b ≠ a := fun he => h.1 he.symm
    simp only [List.cons_append, idxOf, if_neg hb, List.length_cons, List.append_eq]
    have hih := ih l₂ h.2
    omega

/-- Every emitted node has all its dependencies emitted at strictly smaller
positions: the spec's topological-order property over the result list. -/
def ClosedBelow (g : Graph) (r : List Node) : Prop :=
  ∀ n ∈ r, ∀ d ∈ gdeps g n, d ∈ r ∧ idxOf d r < idxOf n r

theorem Reaches.snoc {g : Graph} {a b c : Node} (h : Reaches g a b)
    (hd : c ∈ gdeps g b) : Reaches g a c := by
  induction h with
  | refl x => exact Reaches.step hd (Reaches.refl c)
  | step he _ ih => exact Reaches.step he (ih hd)

theorem mem_foldr_deps {p : Node × List Node} :
    ∀ {g : Graph}, p ∈ g → ∀ d ∈ p.2, d ∈ g.foldr (fun q acc => q.2 ++ acc) [] := by
  intro g
  induction g with
  | nil => intro h; simp at h
  | cons q rest ih =>
    intro hp d hd
    simp only [List.foldr_cons, List.mem_append]
    rcases List.mem_cons.1 hp with h | h
    · exact Or.inl (h ▸ hd)
    · exact Or.inr (ih h d hd)

theorem gdeps_sub_allNodes {g : Graph} {n d : Node} (h : d ∈ gdeps g n) :
    d ∈ allNodes g := by
  unfold gdeps at h
  rcases hl : lookupA n g with _ | l
  · rw [hl] at h; simp at h
  · rw [hl] at h
    simp only [Option.getD_some] at h
    rcases lookupA_mem hl with ⟨p, hp, _, hp2⟩
    exact List.mem_append.2 (Or.inr (mem_foldr_deps hp d (hp2 ▸ h)))

theorem gnodes_sub_allNodes {g : Graph} {n : Node} (h : n ∈ gnodes g) :
    n ∈ allNodes g := List.mem_append.2 (Or.inl h)

theorem visitB_succ (g : Graph) (fuel : Nat) (node : Node) (st : List Node × List Node) :
    visitB g (fuel + 1) node st =
      if node ∈ st.1 then some st
      else
        ((gdeps g node).foldlM (fun s d => visitB g fuel d s) (node :: st.1, st.2)).bind
          (fun st2 => some (st2.1, st2.2 ++ [node])) := rfl

/-- Completed `visit` calls only grow the `visited` set. -/
theorem visitB_mono (g : Graph) :
    ∀ fuel node (st st' : List Node × List Node), visitB g fuel node st = some st' →
      ∀ x ∈ st.1, x ∈ st'.1 := by
  intro fuel
  induction fuel with
  | zero => intro node st st' h; simp [visitB] at h
  | succ fuel ih =>
    have ihList : ∀ (ds : List Node) (st st' : List Node × List Node),
        ds.foldlM (fun s d => visitB g fuel d s) st = some st' →
        ∀ x ∈ st.1, x ∈ st'.1 := by
      intro ds
      induction ds with
      | nil => intro st st' h; simp at h; rw [h]; intro x hx; exact hx
      | cons d rest ihd =>
        intro st st' h
        rw [List.foldlM_cons] at h
        rcases hx : visitB g fuel d st with _ | st1
        · rw [hx] at h
          exact Option.noConfusion h
        · rw [hx] at h
          exact fun x hxm => ihd st1 st' h x (ih d st st1 hx x hxm)
    intro node st st' h
    rw [visitB_succ] at h
    by_cases hm : node ∈ st.1
    · rw [if_pos hm, Option.some.injEq] at h
      rw [← h]; intro x hx; exact hx
    · rw [if_neg hm] at h
      rcases hf : (gdeps g node).foldlM (fun s d => visitB g fuel d s) (node :: st.1, st.2)
        with _ | st2
      · rw [hf] at h; simp at h
      · rw [hf] at h
        simp only [Option.some_bind, Option.some.injEq] at h
        intro x hx
        have : x ∈ st2.1 := ihList _ _ _ hf x (List.mem_cons_of_mem node hx)
        rw [← h]
        exact this

/-- With fuel exceeding the number of unvisited node names, `visit`
completes. -/
theorem visitB_total (g : Graph) :
    ∀ fuel node (v r : List Node), node ∈ allNodes g →
      ((allNodes g).toFinset \ v.toFinset).card < fuel →
      ∃ st', visitB g fuel node (v, r) = some st' := by
  intro fuel
  induction fuel with
  | zero => intro node v r _ h; omega
  | succ fuel ih =>
    have ihList : ∀ (ds : List Node) (st : List Node × List Node),
        (∀ d ∈ ds, d ∈ allNodes g) →
        ((allNodes g).toFinset \ st.1.toFinset).card < fuel →
        ∃ st', ds.foldlM (fun s d => visitB g fuel d s) st = some st' := by
      intro ds
      induction ds with
      | nil => intro st _ _; exact ⟨st, by simp⟩
      | cons d rest ihd =>
        intro st hds hcard
        rcases ih d st.1 st.2 (hds d (by simp)) hcard with ⟨st1, h1⟩
        have hsub : st.1.toFinset ⊆ st1.1.toFinset := by
          intro x hx
          simp only [List.mem_toFinset] at hx ⊢
          exact visitB_mono g fuel d (st.1, st.2) st1 h1 x hx
        have hle : ((allNodes g).toFinset \ st1.1.toFinset).card
            ≤ ((allNodes g).toFinset \ st.1.toFinset).card :=
          Finset.card_le_card (Finset.sdiff_subset_sdiff (le_refl _) hsub)
        rcases ihd st1 (fun d' hd' => hds d' (by simp [hd'])) (lt_of_le_of_lt hle hcard)
          with ⟨st', h2⟩
        refine ⟨st', ?_⟩
        rw [List.foldlM_cons, h1]
        simpa using h2
    intro node v r hnode hcard
    rw [visitB_succ]
    by_cases hm : node ∈ v
    · exact ⟨(v, r), by simp [hm]⟩
    · have hdec : ((allNodes g).toFinset \ (node :: v).toFinset).card
          < ((allNodes g).toFinset \ v.toFinset).card := by
        have hmem : node ∈ (allNodes g).toFinset \ v.toFinset := by
          simp only [Finset.mem_sdiff, List.mem_toFinset]
          exact ⟨hnode, hm⟩
        rw [List.toFinset_cons, Finset.sdiff_insert]
        exact Finset.card_erase_lt_of_mem hmem
      rcases ihList (gdeps g node) (node :: v, r)
        (fun d hd => gdeps_sub_allNodes hd)
        (by show ((allNodes g).toFinset \ (node :: v).toFinset).card < fuel; omega)
        with ⟨st2, h2⟩
      refine ⟨(st2.1, st2.2 ++ [node]), ?_⟩
      simp only [if_neg hm]
      rw [h2]
      rfl

/-- Invariant carried through the build-order DFS: the visited set is exactly
the emitted nodes plus the current recursion chain `S`, the emitted list has
no duplicates, and every emitted node has its dependencies emitted before
it. -/
def BuildInv (g : Graph) (S v r : List Node) : Prop :=
  (∀ x, x ∈ v ↔ x ∈ r ∨ x ∈ S) ∧ r.Nodup ∧ ClosedBelow g r

/-- The single-node soundness step of the build DFS at a given fuel. -/
def BStep (g : Graph) (fuel : Nat) : Prop :=
  ∀ (node : Node) (S v r : List Node) (st' : List Node × List Node),
    visitB g fuel node (v, r) = some st' →
    BuildInv g S v r → (∀ s ∈ S, Reaches g s node) →
    (∃ Δ, st'.2 = r ++ Δ ∧ ∀ x ∈ Δ, x ∉ v) ∧ BuildInv g S st'.1 st'.2 ∧
      (node ∈ st'.2 ∨ node ∈ S)

theorem visitBList_sound (g : Graph) (fuel : Nat) (hB : BStep g fuel) :
    ∀ (ds : List Node) (p : Node) (S : List Node) (st st' : List Node × List Node),
      ds.foldlM (fun s d => visitB g fuel d s) st = some st' →
      (∀ d ∈ ds, d ∈ gdeps g p) → p ∈ S →
      BuildInv g S st.1 st.2 → (∀ s ∈ S, Reaches g s p) →
      (∃ Δ, st'.2 = st.2 ++ Δ ∧ ∀ x ∈ Δ, x ∉ st.1) ∧ BuildInv g S st'.1 st'.2 ∧
        (∀ d ∈ ds, d ∈ st'.2 ∨ d ∈ S) := by
  intro ds
  induction ds with
  | nil =>
    intro p S st st' h _ _ hinv _
    have h' : some st = some st' := h
    cases h'
    exact ⟨⟨[], by simp, by simp⟩, hinv, by simp⟩
  | cons d rest ih =>
    intro p S st st' h hds hpS hinv hreach
    rw [List.foldlM_cons] at h
    rcases hx : visitB g fuel d st with _ | st1
    · rw [hx] at h
      exact Option.noConfusion h
    · rw [hx] at h
      have h1 : List.foldlM (fun s d => visitB g fuel d s) st1 rest = some st' := h
      have hd1 : ∀ s ∈ S, Reaches g s d := fun s hs => (hreach s hs).snoc (hds d (by simp))
      rcases hB d S st.1 st.2 st1 hx hinv hd1 with ⟨⟨Δ1, hΔ1, hfresh1⟩, hinv1, hd⟩
      rcases ih p S st1 st' h1 (fun d' hd' => hds d' (by simp [hd'])) hpS hinv1 hreach with
        ⟨⟨Δ2, hΔ2, hfresh2⟩, hinv2, hrest⟩
      refine ⟨⟨Δ1 ++ Δ2, ?_, ?_⟩, hinv2, ?_⟩
      · rw [hΔ2, hΔ1, List.append_assoc]
      · intro x hx2
        rcases List.mem_append.1 hx2 with hxa | hxb
        · exact hfresh1 x hxa
        · intro hxv
          exact hfresh2 x hxb (visitB_mono g fuel d st st1 hx x hxv)
      · intro d' hd'
        rcases List.mem_cons.1 hd' with h1' | h1'
        · subst h1'
          rcases hd with hmem | hS
          · exact Or.inl (by rw [hΔ2]; exact List.mem_append.2 (Or.inl hmem))
          · exact Or.inr hS
        · exact hrest d' h1'

theorem visitB_sound (g : Graph) (hacyc : Acyclic g) : ∀ fuel, BStep g fuel := by
  intro fuel
  induction fuel with
  | zero => intro node S v r st' h; simp [visitB] at h
  | succ fuel ih =>
    intro node S v r st' h hinv hreach
    rw [visitB_succ] at h
    by_cases hm : node ∈ v
    · rw [if_pos hm, Option.some.injEq] at h
      subst h
      exact ⟨⟨[], by simp, by simp⟩, hinv, (hinv.1 node).1 hm⟩
    · rw [if_neg hm] at h
      rcases hf : (gdeps g node).foldlM (fun s d => visitB g fuel d s) (node :: v, r)
        with _ | st2
      · rw [hf] at h
        exact Option.noConfusion h
      · rw [hf] at h
        have h' : some (st2.1, st2.2 ++ [node]) = some st' := h
        cases h'
        have hinv' : BuildInv g (node :: S) (node :: v) r := by
          refine ⟨fun x => ?_, hinv.2.1, hinv.2.2⟩
          simp only [List.mem_cons]
          rw [hinv.1 x]
          tauto
        have hreach' : ∀ s ∈ node :: S, Reaches g s node := by
          intro s hs
          rcases List.mem_cons.1 hs with h1 | h1
          · exact h1 ▸ Reaches.refl s
          · exact hreach s h1
        rcases visitBList_sound g fuel ih (gdeps g node) node (node :: S) (node :: v, r)
            st2 hf (fun d hd => hd) (by simp) hinv' hreach' with
          ⟨⟨Δ2, hΔ2, hfresh2⟩, hinv2, hALL⟩
        have hnr : node ∉ r := fun hr => hm ((hinv.1 node).2 (Or.inl hr))
        have hnΔ2 : node ∉ Δ2 := fun hmem => hfresh2 node hmem (by simp)
        have hnst2 : node ∉ st2.2 := by
          rw [hΔ2]
          intro hmem
          rcases List.mem_append.1 hmem with h1 | h1
          · exact hnr h1
          · exact hnΔ2 h1
        have hdeps_in : ∀ d ∈ gdeps g node, d ∈ st2.2 := by
          intro d hd
          rcases hALL d hd with h1 | h1
          · exact h1
          · rcases List.mem_cons.1 h1 with h2 | h2
            · subst h2
              exact absurd (Reaches.refl d) (hacyc d d hd)
            · exact absurd (hreach d h2) (hacyc node d hd)
        refine ⟨⟨Δ2 ++ [node], ?_, ?_⟩, ⟨fun x => ?_, ?_, ?_⟩, Or.inl (by simp)⟩
        · simp only [hΔ2, List.append_assoc]
        · intro x hx2
          rcases List.mem_append.1 hx2 with hxa | hxb
          · exact fun hxv => hfresh2 x hxa (List.mem_cons_of_mem node hxv)
          · rw [List.mem_singleton.1 hxb]
            exact hm
        · rw [hinv2.1 x]
          simp only [List.mem_append, List.mem_cons, List.mem_singleton]
          tauto
        · simp only [List.nodup_append, List.nodup_cons, List.nodup_nil, List.Disjoint]
          exact ⟨hinv2.2.1, ⟨by simp, trivial⟩, by
            intro x hx1 hx2
            rw [List.mem_singleton.1 hx2] at hx1
            exact hnst2 hx1⟩
        · intro n hn d hd
          rcases List.mem_append.1 hn with h1 | h1
          · rcases hinv2.2.2 n h1 d hd with ⟨hdr, hidx⟩
            refine ⟨List.mem_append.2 (Or.inl hdr), ?_⟩
            rw [idxOf_append_left [node] hdr, idxOf_append_left [node] h1]
            exact hidx
          · have hn2 := List.mem_singleton.1 h1
            rw [hn2] at hd ⊢
            have hdin := hdeps_in d hd
            refine ⟨List.mem_append.2 (Or.inl hdin), ?_⟩
            rw [idxOf_append_left [node] hdin, idxOf_append_not_mem [node] hnst2]
            have := idxOf_lt_length hdin
            simp only [idxOf, if_pos rfl]
            omega

theorem goB_sound (g : Graph) (hacyc : Acyclic g) :
    ∀ (ns : List Node) (st st' : List Node × List Node),
      goB g ns st = some st' → BuildInv g [] st.1 st.2 →
      (∃ Δ, st'.2 = st.2 ++ Δ) ∧ BuildInv g [] st'.1 st'.2 ∧ (∀ n ∈ ns, n ∈ st'.2) := by
  intro ns
  induction ns with
  | nil =>
    intro st st' h hinv
    have h' : some st = some st' := h
    cases h'
    exact ⟨⟨[], by simp⟩, hinv, by simp⟩
  | cons n rest ih =>
    intro st st' h hinv
    simp only [goB] at h
    rcases hx : visitB g (fuelOf g) n st with _ | st1
    · rw [hx] at h
      exact Option.noConfusion h
    · rw [hx] at h
      rcases visitB_sound g hacyc (fuelOf g) n [] st.1 st.2 st1 hx hinv (by simp) with
        ⟨⟨Δ1, hΔ1, _⟩, hinv1, hn⟩
      have hnr : n ∈ st1.2 := by
        rcases hn with h1 | h1
        · exact h1
        · simp at h1
      rcases ih st1 st' h hinv1 with ⟨⟨Δ2, hΔ2⟩, hinv2, hrest⟩
      refine ⟨⟨Δ1 ++ Δ2, by rw [hΔ2, hΔ1, List.append_assoc]⟩, hinv2, ?_⟩
      intro m hm
      rcases List.mem_cons.1 hm with h1 | h1
      · subst h1
        rw [hΔ2]
        exact List.mem_append.2 (Or.inl hnr)
      · exact hrest m h1

theorem goB_total (g : Graph) :
    ∀ (ns : List Node) (v r : List Node), (∀ n ∈ ns, n ∈ allNodes g) →
      ∃ st', goB g ns (v, r) = some st' := by
  intro ns
  induction ns with
  | nil => intro v r _; exact ⟨(v, r), rfl⟩
  | cons n rest ih =>
    intro v r hns
    have hcard : ((allNodes g).toFinset \ v.toFinset).card < fuelOf g := by
      have h1 : ((allNodes g).toFinset \ v.toFinset).card ≤ (allNodes g).toFinset.card :=
        Finset.card_le_card Finset.sdiff_subset
      simp only [fuelOf]
      omega
    rcases visitB_total g (fuelOf g) n v r (hns n (by simp)) hcard with ⟨st1, h1⟩
    rcases ih st1.1 st1.2 (fun m hm => hns m (by simp [hm])) with ⟨st', h2⟩
    refine ⟨st', ?_⟩
    simp only [goB]
    rw [h1]
    exact h2

/-- **C1.** For every acyclic dependency graph and every edge (`a` depends on
`b`, with `a` a key of the graph), both `a` and `b` appear in the sequence
returned by `get_build_order`, and `b` appears strictly before `a`.  `b`
need not be a key of the graph: dangling dependency names are treated as
leaves and still emitted. -/
theorem build_order_topological (g : Graph) (hacyc : Acyclic g) (a b : Node)
    (ha : a ∈ gnodes g) (hb : b ∈ gdeps g a) :
    b ∈ get_build_order g ∧ a ∈ get_build_order g ∧
      idxOf b (get_build_order g) < idxOf a (get_build_order g) := by
  rcases goB_total g (gnodes g) [] [] (fun n hn => gnodes_sub_allNodes hn) with ⟨st', hrun⟩
  have hord : get_build_order g = st'.2 := by
    simp only [get_build_order]
    rw [hrun]
  rcases goB_sound g hacyc (gnodes g) ([], []) st' hrun
      ⟨by simp, List.nodup_nil, fun n hn => absurd hn (List.not_mem_nil n)⟩ with
    ⟨_, hinv, hall⟩
  have hain : a ∈ st'.2 := hall a ha
  rcases hinv.2.2 a hain b hb with ⟨hbin, hidx⟩
  rw [hord]
  exact ⟨hbin, hain, hidx⟩

/-- The concrete acyclic graph with the single edge: `A` depends on `B`. -/
def gW : Graph := [("A", ["B"])]

theorem gdeps_gW (a : Node) : gdeps gW a = if "A" = a then ["B"] else [] := by
  by_cases ha : "A" = a <;> simp [gdeps, gW, lookupA, ha]

theorem reaches_nil_deps {g : Graph} {a b : Node} (h : Reaches g a b)
    (hnd : gdeps g a = []) : a = b := by
  cases h with
  | refl => rfl
  | step h1 _ =>
    rw [hnd] at h1
    exact absurd h1 (List.not_mem_nil _)

theorem acyclic_gW : Acyclic gW := by
  intro x y hy hr
  rw [gdeps_gW] at hy
  by_cases hx : "A" = x
  · subst hx
    rw [if_pos rfl] at hy
    rw [List.mem_singleton.1 hy] at hr
    have hBA : "B" = "A" := reaches_nil_deps hr (by decide)
    exact absurd hBA (by decide)
  · rw [if_neg hx] at hy
    exact absurd hy (List.not_mem_nil y)

/-- Witness for C1 on the concrete edge `A` depends on `B`. -/
theorem build_order_topological_witness :
    "B" ∈ get_build_order gW ∧ "A" ∈ get_build_order gW ∧
      idxOf "B" (get_build_order gW) < idxOf "A" (get_build_order gW) :=
  build_order_topological gW acyclic_gW "A" "B" (by decide) (by decide)

/-! ## Cycle-detection traversal lemmas (C7, C10) -/

theorem visitC_succ (g : Graph) (fuel : Nat) (node : Node) (path : List Node)
    (st : CycSt) :
    visitC g (fuel + 1) node path st =
      if node ∈ st.recStack then
        some { st with cycles := st.cycles ++ [path.drop (idxOf node path) ++ [node]] }
      else if node ∈ st.visited then some st
      else
        ((gdeps g node).foldlM (fun s d => visitC g fuel d (path ++ [node]) s)
            { st with visited := node :: st.visited, recStack := node :: st.recStack }).bind
          (fun st2 => some { st2 with recStack := st2.recStack.erase node }) := rfl

/-- Completed cycle-detection calls only grow the `visited` set. -/
theorem visitC_mono (g : Graph) :
    ∀ fuel node path (st st' : CycSt), visitC g fuel node path st = some st' →
      ∀ x ∈ st.visited, x ∈ st'.visited := by
  intro fuel
  induction fuel with
  | zero => intro node path st st' h; simp [visitC] at h
  | succ fuel ih =>
    have ihList : ∀ (ds : List Node) (path : List Node) (st st' : CycSt),
        ds.foldlM (fun s d => visitC g fuel d path s) st = some st' →
        ∀ x ∈ st.visited, x ∈ st'.visited := by
      intro ds
      induction ds with
      | nil =>
        intro path st st' h
        have h' : some st = some st' := h
        cases h'
        exact fun x hx => hx
      | cons d rest ihd =>
        intro path st st' h
        rw [List.foldlM_cons] at h
        rcases hx : visitC g fuel d path st with _ | st1
        · rw [hx] at h
          exact Option.noConfusion h
        · rw [hx] at h
          exact fun x hxm => ihd path st1 st' h x (ih d path st st1 hx x hxm)
    intro node path st st' h
    rw [visitC_succ] at h
    by_cases hm : node ∈ st.recStack
    · rw [if_pos hm, Option.some.injEq] at h
      rw [← h]
      exact fun x hx => hx
    · rw [if_neg hm] at h
      by_cases hv : node ∈ st.visited
      · rw [if_pos hv, Option.some.injEq] at h
        rw [← h]
        exact fun x hx => hx
      · rw [if_neg hv] at h
        rcases hf : (gdeps g node).foldlM (fun s d => visitC g fuel d (path ++ [node]) s)
            { st with visited := node :: st.visited, recStack := node :: st.recStack }
          with _ | st2
        · rw [hf] at h
          exact Option.noConfusion h
        · rw [hf] at h
          have h' : some { st2 with recStack := st2.recStack.erase node } = some st' := h
          cases h'
          exact fun x hx => ihList _ _ _ _ hf x (List.mem_cons_of_mem node hx)

/-- With fuel exceeding the number of unvisited node names, the
cycle-detection `visit` completes. -/
theorem visitC_total (g : Graph) :
    ∀ fuel node path (st : CycSt), node ∈ allNodes g →
      ((allNodes g).toFinset \ st.visited.toFinset).card < fuel →
      ∃ st', visitC g fuel node path st = some st' := by
  intro fuel
  induction fuel with
  | zero => intro node path st _ h; omega
  | succ fuel ih =>
    have ihList : ∀ (ds : List Node) (path : List Node) (st : CycSt),
        (∀ d ∈ ds, d ∈ allNodes g) →
        ((allNodes g).toFinset \ st.visited.toFinset).card < fuel →
        ∃ st', ds.foldlM (fun s d => visitC g fuel d path s) st = some st' := by
      intro ds
      induction ds with
      | nil => intro path st _ _; exact ⟨st, by simp⟩
      | cons d rest ihd =>
        intro path st hds hcard
        rcases ih d path st (hds d (by simp)) hcard with ⟨st1, h1⟩
        have hsub : st.visited.toFinset ⊆ st1.visited.toFinset := by
          intro x hx
          simp only [List.mem_toFinset] at hx ⊢
          exact visitC_mono g fuel d path st st1 h1 x hx
        have hle : ((allNodes g).toFinset \ st1.visited.toFinset).card
            ≤ ((allNodes g).toFinset \ st.visited.toFinset).card :=
          Finset.card_le_card (Finset.sdiff_subset_sdiff (le_refl _) hsub)
        rcases ihd path st1 (fun d' hd' => hds d' (by simp [hd']))
          (lt_of_le_of_lt hle hcard) with ⟨st', h2⟩
        refine ⟨st', ?_⟩
        rw [List.foldlM_cons, h1]
        simpa using h2
    intro node path st hnode hcard
    rw [visitC_succ]
    by_cases hm : node ∈ st.recStack
    · exact ⟨_, by rw [if_pos hm]⟩
    · rw [if_neg hm]
      by_cases hv : node ∈ st.visited
      · exact ⟨st, by rw [if_pos hv]⟩
      · rw [if_neg hv]
        have hdec : ((allNodes g).toFinset \ (node :: st.visited).toFinset).card
            < ((allNodes g).toFinset \ st.visited.toFinset).card := by
          have hmem : node ∈ (allNodes g).toFinset \ st.visited.toFinset := by
            simp only [Finset.mem_sdiff, List.mem_toFinset]
            exact ⟨hnode, hv⟩
          rw [List.toFinset_cons, Finset.sdiff_insert]
          exact Finset.card_erase_lt_of_mem hmem
        rcases ihList (gdeps g node) (path ++ [node])
            { st with visited := node :: st.visited, recStack := node :: st.recStack }
            (fun d hd => gdeps_sub_allNodes hd)
            (by show ((allNodes g).toFinset \ (node :: st.visited).toFinset).card < fuel
                omega)
          with ⟨st2, h2⟩
        refine ⟨{ st2 with recStack := st2.recStack.erase node }, ?_⟩
        rw [h2]
        rfl

theorem chain_reaches {g : Graph} :
    ∀ p : List Node, List.Chain' (fun a b => b ∈ gdeps g a) p →
      ∀ a ∈ p, ∀ x, p.getLast? = some x → Reaches g a x := by
  intro p
  induction p with
  | nil => intro _ a ha; simp at ha
  | cons b rest ih =>
    intro hch a ha x hlast
    rcases rest with _ | ⟨c, rest'⟩
    · simp only [List.mem_singleton] at ha
      simp only [List.getLast?_singleton, Option.some.injEq] at hlast
      subst ha
      subst hlast
      exact Reaches.refl a
    · have hsplit := List.chain'_cons.1 hch
      have hlast' : (c :: rest').getLast? = some x := by
        rwa [List.getLast?_cons_cons] at hlast
      rcases List.mem_cons.1 ha with h1 | h1
      · subst h1
        exact Reaches.step hsplit.1 (ih hsplit.2 c (by simp) x hlast')
      · exact ih hsplit.2 a h1 x hlast'

/-- Soundness step of the cycle DFS at a fixed fuel, on acyclic graphs:
no cycle is ever recorded, and the recursion stack is restored. -/
def CStep (g : Graph) (fuel : Nat) : Prop :=
  ∀ (node : Node) (path : List Node) (st st' : CycSt),
    visitC g fuel node path st = some st' →
    st.recStack = path.reverse →
    List.Chain' (fun a b => b ∈ gdeps g a) path →
    (∀ x, path.getLast? = some x → node ∈ gdeps g x) →
    st'.cycles = st.cycles ∧ st'.recStack = st.recStack

theorem visitCList_pres (g : Graph) (fuel : Nat) (hC : CStep g fuel) :
    ∀ (ds : List Node) (path : List Node) (st st' : CycSt),
      ds.foldlM (fun s d => visitC g fuel d path s) st = some st' →
      st.recStack = path.reverse →
      List.Chain' (fun a b => b ∈ gdeps g a) path →
      (∀ d ∈ ds, ∀ x, path.getLast? = some x → d ∈ gdeps g x) →
      st'.cycles = st.cycles ∧ st'.recStack = st.recStack := by
  intro ds
  induction ds with
  | nil =>
    intro path st st' h _ _ _
    have h' : some st = some st' := h
    cases h'
    exact ⟨rfl, rfl⟩
  | cons d rest ih =>
    intro path st st' h hrec hch hds
    rw [List.foldlM_cons] at h
    rcases hx : visitC g fuel d path st with _ | st1
    · rw [hx] at h
      exact Option.noConfusion h
    · rw [hx] at h
      rcases hC d path st st1 hx hrec hch (fun x hx' => hds d (by simp) x hx') with
        ⟨hcyc1, hrec1⟩
      rcases ih path st1 st' h (hrec1.trans hrec) hch
          (fun d' hd' x hx' => hds d' (by simp [hd']) x hx') with ⟨hcyc2, hrec2⟩
      exact ⟨hcyc2.trans hcyc1, hrec2.trans hrec1⟩

theorem visitC_pres (g : Graph) (hacyc : Acyclic g) : ∀ fuel, CStep g fuel := by
  intro fuel
  induction fuel with
  | zero => intro node path st st' h; simp [visitC] at h
  | succ fuel ih =>
    intro node path st st' h hrec hch hlast
    rw [visitC_succ] at h
    by_cases hm : node ∈ st.recStack
    · exfalso
      rw [hrec] at hm
      have hmp : node ∈ path := List.mem_reverse.1 hm
      have hne : path ≠ [] := fun he => by simp [he] at hmp
      have hsome : path.getLast?.isSome := List.getLast?_isSome.2 hne
      rcases Option.isSome_iff_exists.1 hsome with ⟨x, hx⟩
      exact hacyc x node (hlast x hx) (chain_reaches path hch node hmp x hx)
    · rw [if_neg hm] at h
      by_cases hv : node ∈ st.visited
      · rw [if_pos hv, Option.some.injEq] at h
        rw [← h]
        exact ⟨rfl, rfl⟩
      · rw [if_neg hv] at h
        rcases hf : (gdeps g node).foldlM (fun s d => visitC g fuel d (path ++ [node]) s)
            { st with visited := node :: st.visited, recStack := node :: st.recStack }
          with _ | st2
        · rw [hf] at h
          exact Option.noConfusion h
        · rw [hf] at h
          have h' : some { st2 with recStack := st2.recStack.erase node } = some st' := h
          cases h'
          have hch1 : List.Chain' (fun a b => b ∈ gdeps g a) (path ++ [node]) := by
            rw [List.chain'_append]
            refine ⟨hch, List.chain'_singleton node, ?_⟩
            intro x hx y hy
            simp only [List.head?_cons, Option.mem_def, Option.some.injEq] at hy
            subst hy
            exact hlast x hx
          have hds1 : ∀ d ∈ gdeps g node, ∀ x, (path ++ [node]).getLast? = some x →
              d ∈ gdeps g x := by
            intro d hd x hx
            rw [List.getLast?_concat] at hx
            injection hx with hx'
            subst hx'
            exact hd
          rcases visitCList_pres g fuel ih (gdeps g node) (path ++ [node]) _ st2 hf
              (by simp [hrec]) hch1 hds1 with ⟨hcyc2, hrec2⟩
          constructor
          · simpa using hcyc2
          · simp only at hrec2 ⊢
            rw [hrec2]
            simp [hrec]

theorem goC_pres (g : Graph) (hacyc : Acyclic g) :
    ∀ (ns : List Node) (st st' : CycSt), goC g ns st = some st' →
      st.recStack = [] → st'.cycles = st.cycles ∧ st'.recStack = [] := by
  intro ns
  induction ns with
  | nil =>
    intro st st' h hrec
    have h' : some st = some st' := h
    cases h'
    exact ⟨rfl, hrec⟩
  | cons n rest ih =>
    intro st st' h hrec
    simp only [goC] at h
    rcases hx : visitC g (fuelOf g) n [] st with _ | st1
    · rw [hx] at h
      exact Option.noConfusion h
    · rw [hx] at h
      rcases visitC_pres g hacyc (fuelOf g) n [] st st1 hx (by simp [hrec])
          List.chain'_nil (fun x hx' => by simp at hx') with ⟨hcyc1, hrec1⟩
      rcases ih st1 st' h (hrec1.trans hrec) with ⟨hcyc2, hrec2⟩
      exact ⟨hcyc2.trans hcyc1, hrec2⟩

theorem goC_total (g : Graph) :
    ∀ (ns : List Node) (st : CycSt), (∀ n ∈ ns, n ∈ allNodes g) →
      ∃ st', goC g ns st = some st' := by
  intro ns
  induction ns with
  | nil => intro st _; exact ⟨st, rfl⟩
  | cons n rest ih =>
    intro st hns
    have hcard : ((allNodes g).toFinset \ st.visited.toFinset).card < fuelOf g := by
      have h1 : ((allNodes g).toFinset \ st.visited.toFinset).card
          ≤ (allNodes g).toFinset.card := Finset.card_le_card Finset.sdiff_subset
      simp only [fuelOf]
      omega
    rcases visitC_total g (fuelOf g) n [] st (hns n (by simp)) hcard with ⟨st1, h1⟩
    rcases ih st1 (fun m hm => hns m (by simp [hm])) with ⟨st', h2⟩
    refine ⟨st', ?_⟩
    simp only [goC]
    rw [h1]
    exact h2

/-- **C7.** Both resolver traversals complete on every finite dependency
graph, cyclic or not: with the fuel bound `fuelOf` (one more than the number
of distinct node names) neither `get_build_order`'s nor `detect_cycles`'s
recursion ever exhausts its bound, so both return a result instead of
looping or failing. -/
theorem resolver_terminates (g : Graph) :
    (∃ st, goB g (gnodes g) ([], []) = some st) ∧
    (∃ st, goC g (gnodes g) ⟨[], [], []⟩ = some st) :=
  ⟨goB_total g (gnodes g) [] [] (fun _ hn => gnodes_sub_allNodes hn),
   goC_total g (gnodes g) ⟨[], [], []⟩ (fun _ hn => gnodes_sub_allNodes hn)⟩

/-- **C10.** On every acyclic graph `detect_cycles` returns the empty list:
a cycle is only ever recorded when the walk re-enters its own recursion
stack, which would exhibit a genuine cyclic dependency path. -/
theorem detect_cycles_acyclic (g : Graph) (hacyc : Acyclic g) :
    detect_cycles g = [] := by
  unfold detect_cycles
  rcases hrun : goC g (gnodes g) ⟨[], [], []⟩ with _ | st
  · rfl
  · rcases goC_pres g hacyc (gnodes g) ⟨[], [], []⟩ st hrun rfl with ⟨hcyc, _⟩
    simpa using hcyc

/-- Witness for C10 on the concrete acyclic graph `gW`. -/
theorem detect_cycles_acyclic_witness : detect_cycles gW = [] :=
  detect_cycles_acyclic gW acyclic_gW

end Thalos
